import Mathlib

/-!
Verification development for the packaging-and-delivery pipeline of
`auto_backup/core.py` (class `BackupManager`) with constants from
`auto_backup/config.py` (class `BackupConfig`).

The embedding is shallow:

* Pure numeric code is translated to `Nat` arithmetic.  The Python float
  expressions that feed integer results (`int(...)`) are translated to the
  exact `Nat` value they produce; where that matters the exactness of the
  float computation is argued in a comment at the definition.
* The local filesystem is a state value `FS` holding an association list
  from paths to file sizes plus a list of existing directories.  Paths are
  lists of segments (`os.path.join d n` is `d ++ [n]`, `os.path.dirname p`
  is `p.dropLast`).  File *contents* matter only for the chunk splitter's
  losslessness, which is modelled separately at the byte-list level
  (`readChunks`); everywhere else only sizes and existence are observable,
  so `FS` stores sizes.
* Network effects are oracles passed as parameters: the outcome of one
  provider delivery attempt for a file is a `Bool`-valued function of its
  path, and I/O failures inside the chunk writer are an `Option Nat`
  (index of the chunk whose read/write raises `OSError`).  The remote
  WebDAV store of `_create_remote_directory` is modelled as a conforming
  server state (set of existing collections) with MKCOL semantics:
  405 for an existing collection, 409 for a missing parent, 201 otherwise.
-/

/-- `config.py`: `MAX_SOURCE_DIR_SIZE = 500 * 1024 * 1024`. -/
def MAX_SOURCE_DIR_SIZE : Nat := 500 * 1024 * 1024

/-- `config.py`: `MAX_SINGLE_FILE_SIZE = 50 * 1024 * 1024`. -/
def MAX_SINGLE_FILE_SIZE : Nat := 50 * 1024 * 1024

/-- `config.py`: `CHUNK_SIZE = 50 * 1024 * 1024`. -/
def CHUNK_SIZE : Nat := 50 * 1024 * 1024

/-- `core.py` line 790:
`MAX_CHUNK_SIZE = int(self.config.MAX_SINGLE_FILE_SIZE * self.config.SAFETY_MARGIN / self.config.COMPRESSION_RATIO)`
with safety margin `0.7` and estimated compression ratio `0.7`.
The float computation `int(52428800 * 0.7 / 0.7)` evaluates to exactly
`52428800` in IEEE-754 double precision (`52428800 * 0.7 = 36700160.0`
exactly, and `36700160.0 / 0.7 = 52428800.0` exactly). -/
def MAX_CHUNK_SIZE : Nat := 52428800

/-!
## Chunk Splitter, content level (`split_large_file`, core.py lines 329-342)

The read loop is

    with open(file_path, 'rb') as f:
        chunk_num = 0
        while True:
            chunk_data = f.read(self.config.CHUNK_SIZE)
            if not chunk_data:
                break
            ... write chunk_data to f"{base_name}.part{chunk_num:03d}" ...
            chunk_num += 1

`f.read c` on a remaining byte stream `L` yields `L.take c` and leaves
`L.drop c`; the loop stops at the first empty read.  Chunks are written in
ascending `chunk_num` order, so list order is ordinal (`.part000`,
`.part001`, ...) order.  The recursion is expressed with explicit fuel
(one unit per loop iteration, `L.length` iterations suffice because each
non-final read consumes at least one byte when `0 < c`).
-/

/-- One `while True` read loop of `split_large_file`, with fuel. -/
def readChunksF (c : Nat) : Nat → List Nat → List (List Nat)
  | 0, _ => []
  | fuel + 1, L =>
    if c = 0 ∨ L = [] then []
    else L.take c :: readChunksF c fuel (L.drop c)

/-- The list of chunk contents `split_large_file` writes for a file whose
byte content is `L`, in ascending ordinal (`.partNNN`) order. -/
def readChunks (c : Nat) (L : List Nat) : List (List Nat) :=
  readChunksF c L.length L

theorem readChunksF_join (c : Nat) (hc : 0 < c) :
    ∀ (fuel : Nat) (L : List Nat), L.length ≤ fuel →
      (readChunksF c fuel L).flatten = L := by
  intro fuel
  induction fuel with
  | zero =>
    intro L hL
    have : L = [] := List.length_eq_zero.mp (Nat.le_zero.mp hL)
    simp [readChunksF, this]
  | succ n ih =>
    intro L hL
    by_cases hnil : L = []
    · simp [readChunksF, hnil]
    · have hcond : ¬ (c = 0 ∨ L = []) := by
        rintro (h | h)
        · omega
        · exact hnil h
      rw [readChunksF, if_neg hcond]
      have hlen : (L.drop c).length ≤ n := by
        have hpos : 0 < L.length := List.length_pos.mpr hnil
        rw [List.length_drop]
        omega
      rw [List.flatten_cons, ih (L.drop c) hlen, List.take_append_drop]

theorem readChunksF_ne_nil (c : Nat) :
    ∀ (fuel : Nat) (L : List Nat), ∀ ch ∈ readChunksF c fuel L, ch ≠ [] := by
  intro fuel
  induction fuel with
  | zero => intro L ch hch; simp [readChunksF] at hch
  | succ n ih =>
    intro L ch hch
    by_cases hcond : c = 0 ∨ L = []
    · simp [readChunksF, if_pos hcond] at hch
    · rw [readChunksF, if_neg hcond, List.mem_cons] at hch
      rcases hch with hch | hch
      · push_neg at hcond
        subst hch
        have h1 : 0 < c := Nat.pos_of_ne_zero hcond.1
        have h2 : 0 < L.length := List.length_pos.mpr hcond.2
        simp only [ne_eq, ← List.length_eq_zero]
        rw [List.length_take]
        omega
      · exact ih (L.drop c) ch hch

/-- losslessness of the chunk read loop: ordered concatenation of chunks
reproduces the file content, for any positive chunk size. -/
theorem readChunks_join (c : Nat) (hc : 0 < c) (L : List Nat) :
    (readChunks c L).flatten = L :=
  readChunksF_join c hc L.length L (Nat.le_refl _)

/-- no chunk produced by the read loop is empty (in particular no empty
trailing fragment when the size is an exact multiple of the chunk size):
the loop stops at the first empty read instead of writing it. -/
theorem readChunks_ne_nil (c : Nat) (L : List Nat) :
    ∀ ch ∈ readChunks c L, ch ≠ [] :=
  readChunksF_ne_nil c L.length L

/-!
## Filesystem state model

Paths are segment lists.  `FS.files` maps a file path to its byte size
(first binding wins, as on a real filesystem each path occurs once);
`FS.dirs` is the set of existing directories.
-/

/-- A filesystem path, as its list of segments. -/
abbrev FPath := List String

/-- Local filesystem state: file sizes and existing directories. -/
structure FS where
  files : List (FPath × Nat)
  dirs : List FPath
  deriving DecidableEq, Repr

/-- First binding of path `p` in an association list of files. -/
def lookupFile : List (FPath × Nat) → FPath → Option Nat
  | [], _ => none
  | e :: rest, p => if e.1 = p then some e.2 else lookupFile rest p

/-- `os.remove p` / "delete the binding of `p`". -/
def FS.removeFile (fs : FS) (p : FPath) : FS :=
  { fs with files := fs.files.filter (fun e => decide (e.1 ≠ p)) }

/-- Write (create or overwrite) file `p` with size `sz`. -/
def FS.writeFile (fs : FS) (p : FPath) (sz : Nat) : FS :=
  { fs with files := (p, sz) :: fs.files.filter (fun e => decide (e.1 ≠ p)) }

/-- `os.makedirs d` (parent creation is not observable in any claim). -/
def FS.addDir (fs : FS) (d : FPath) : FS :=
  { fs with dirs := d :: fs.dirs }

/-- `true` iff directory `d` is the path `p` or an ancestor of it. -/
def underDir : FPath → FPath → Bool
  | [], _ => true
  | _ :: _, [] => false
  | a :: as, b :: bs => decide (a = b) && underDir as bs

/-- `_clean_directory` (core.py lines 168-184): `shutil.rmtree` the tree at
`d`, then `_ensure_directory` re-creates `d` itself, so afterwards `d`
exists and is empty. -/
def clean_directory (fs : FS) (d : FPath) : FS :=
  { files := fs.files.filter (fun e => !underDir d e.1),
    dirs := d :: fs.dirs.filter (fun q => !underDir d q) }

/-- `_is_valid_file` (core.py lines 210-223):
`os.path.isfile(file_path) and os.path.getsize(file_path) > 0`,
any exception giving `False`. -/
def is_valid_file (fs : FS) (p : FPath) : Bool :=
  match lookupFile fs.files p with
  | none => false
  | some sz => decide (0 < sz)

/-!
## Chunk Splitter, filesystem level (`split_large_file`, core.py 306-348)

At this level only the chunk *sizes* are observable; the byte-level loop is
`readChunks` above, and `chunkSizes c n` is exactly the list of lengths of
`readChunks c L` for `L.length = n` (proved in `chunkSizes_eq_map_length`).
-/

/-- Sizes of the successive reads of the chunk loop, with fuel. -/
def chunkSizesF (c : Nat) : Nat → Nat → List Nat
  | 0, _ => []
  | fuel + 1, n =>
    if c = 0 ∨ n = 0 then []
    else min c n :: chunkSizesF c fuel (n - c)

/-- Sizes of the chunk files `split_large_file` writes for a file of size
`n` (`n / c + 1` units of fuel cover all `⌈n / c⌉` iterations). -/
def chunkSizes (c n : Nat) : List Nat :=
  chunkSizesF c (n / c + 1) n

/-- `f"{chunk_num:03d}"`: decimal, zero-padded on the left to width 3. -/
def pad3 (n : Nat) : String :=
  let s := Nat.repr n
  if s.length < 3 then String.mk (List.replicate (3 - s.length) '0') ++ s else s

/-- `f"{base_name}.part{chunk_num:03d}"` (core.py line 336). -/
def chunkName (base : String) (i : Nat) : String :=
  base ++ ".part" ++ pad3 i

/-- The chunk-writing loop body of `split_large_file`: writes one fragment
file per chunk into `chunkDir`, with ascending zero-padded ordinals.
`failAt = some j` models an `OSError` raised while reading or writing
chunk `j` (the `except` clause then returns `None`, leaving the fragments
already written in place). -/
def writeChunks (failAt : Option Nat) (chunkDir : FPath) (base : String) :
    List Nat → Nat → FS → Option (List FPath) × FS
  | [], _, fs => (some [], fs)
  | sz :: rest, i, fs =>
    if failAt = some i then (none, fs)
    else
      ((writeChunks failAt chunkDir base rest (i + 1)
          (fs.writeFile (chunkDir ++ [chunkName base i]) sz)).1.map
         (fun ps => (chunkDir ++ [chunkName base i]) :: ps),
       (writeChunks failAt chunkDir base rest (i + 1)
          (fs.writeFile (chunkDir ++ [chunkName base i]) sz)).2)

/-- `split_large_file` (core.py lines 306-348).  Returns `none` when the
path is missing, when the size is at or below `MAX_SINGLE_FILE_SIZE`
("no split needed"), when the `chunks` staging directory cannot be created
(`ensureDirOk = false` models `_ensure_directory` failing), or when an
`OSError` occurs during chunking (`failAt`); otherwise the fragment path
list. -/
def split_large_file (ensureDirOk : Bool) (failAt : Option Nat) (fs : FS) (p : FPath) :
    Option (List FPath) × FS :=
  match lookupFile fs.files p with
  | none => (none, fs)
  | some sz =>
    if sz ≤ MAX_SINGLE_FILE_SIZE then (none, fs)
    else if ensureDirOk = false then (none, fs)
    else
      let chunkDir := p.dropLast ++ ["chunks"]
      let base := p.getLastD ""
      writeChunks failAt chunkDir base (chunkSizes CHUNK_SIZE sz) 0 (fs.addDir chunkDir)

/-!
## Upload Orchestrator (`upload_file` / `_upload_single_file`, core.py
350-381 and 613-658)

`netInfini p` / `netGofile p` are the environment oracles for "the whole
`_upload_single_file_infini` (resp. `_upload_single_file_gofile`) call on
file `p` eventually returns True".  Neither provider function modifies the
local filesystem (they only read the file), so at this level a provider
call is exactly its Boolean outcome.
-/

/-- `_upload_single_file` (core.py lines 613-658): a zero-size or oversize
file is deleted and the call fails; otherwise the primary provider is
tried, then the fallback pool; the local file is deleted exactly when one
of them confirms success.  A missing file makes `os.path.getsize` raise
`OSError`, caught to `return False`. -/
def upload_single_file (netInfini netGofile : FPath → Bool) (fs : FS) (p : FPath) :
    Bool × FS :=
  match lookupFile fs.files p with
  | none => (false, fs)
  | some sz =>
    if sz = 0 then (false, fs.removeFile p)
    else if MAX_SINGLE_FILE_SIZE < sz then (false, fs.removeFile p)
    else if netInfini p then (true, fs.removeFile p)
    else if netGofile p then (true, fs.removeFile p)
    else (false, fs)

/-- The `for chunk_file in chunk_files` loop of `upload_file` (lines
366-369): attempts every fragment (no short-circuit), `success` stays
`True` only if all attempts succeed. -/
def uploadChunks (netInfini netGofile : FPath → Bool) (fs : FS) :
    List FPath → Bool × FS
  | [] => (true, fs)
  | c :: rest =>
    let r := upload_single_file netInfini netGofile fs c
    let rr := uploadChunks netInfini netGofile r.2 rest
    (r.1 && rr.1, rr.2)

/-- `upload_file` (core.py lines 350-381), the delivery entry point. -/
def upload_file (ensureDirOk : Bool) (failAt : Option Nat)
    (netInfini netGofile : FPath → Bool) (fs : FS) (p : FPath) : Bool × FS :=
  if is_valid_file fs p = false then (false, fs)
  else
    match split_large_file ensureDirOk failAt fs p with
    | (some chunks, fs1) =>
      if chunks = [] then upload_single_file netInfini netGofile fs1 p
      else
        let r := uploadChunks netInfini netGofile fs1 chunks
        if r.1 then
          let chunkDir := (chunks.headD []).dropLast
          let fs3 := clean_directory r.2 chunkDir
          (true, fs3.removeFile p)
        else (false, r.2)
    | (none, fs1) => upload_single_file netInfini netGofile fs1 p

/-! ### Association-list and path lemmas -/

theorem lookupFile_filter_none (f : FPath × Nat → Bool) (l : List (FPath × Nat)) (p : FPath)
    (hf : ∀ s, f (p, s) = false) : lookupFile (l.filter f) p = none := by
  induction l with
  | nil => rfl
  | cons e rest ih =>
    by_cases he : f e = true
    · rw [List.filter_cons_of_pos he, lookupFile]
      split
      · next h =>
          exfalso
          have : f (p, e.2) = true := by
            have : (p, e.2) = e := by
              cases e with
              | mk a b => simp_all
            rw [this]; exact he
          rw [hf e.2] at this
          exact Bool.false_ne_true this
      · exact ih
    · rw [List.filter_cons_of_neg he]
      exact ih

theorem lookupFile_filter_same (f : FPath × Nat → Bool) (l : List (FPath × Nat)) (q : FPath)
    (hf : ∀ s, f (q, s) = true) : lookupFile (l.filter f) q = lookupFile l q := by
  induction l with
  | nil => rfl
  | cons e rest ih =>
    by_cases hq : e.1 = q
    · have hfe : f e = true := by
        have : (q, e.2) = e := by
          cases e with
          | mk a b => simp_all
        rw [← this]; exact hf e.2
      rw [List.filter_cons_of_pos hfe, lookupFile, lookupFile, if_pos hq, if_pos hq]
    · by_cases hfe : f e = true
      · rw [List.filter_cons_of_pos hfe, lookupFile, lookupFile, if_neg hq, if_neg hq]
        exact ih
      · rw [List.filter_cons_of_neg hfe, lookupFile, if_neg hq]
        exact ih

theorem lookupFile_removeFile_self (fs : FS) (p : FPath) :
    lookupFile (fs.removeFile p).files p = none := by
  apply lookupFile_filter_none
  intro s
  simp

theorem lookupFile_removeFile_ne (fs : FS) (p q : FPath) (h : q ≠ p) :
    lookupFile (fs.removeFile p).files q = lookupFile fs.files q := by
  apply lookupFile_filter_same
  intro s
  simp [h]

theorem lookupFile_removeFile_of_none (fs : FS) (p q : FPath)
    (h : lookupFile fs.files q = none) :
    lookupFile (fs.removeFile p).files q = none := by
  by_cases hq : q = p
  · subst hq; exact lookupFile_removeFile_self fs q
  · rw [lookupFile_removeFile_ne fs p q hq]; exact h

theorem lookupFile_writeFile_self (fs : FS) (p : FPath) (sz : Nat) :
    lookupFile (fs.writeFile p sz).files p = some sz := by
  simp [FS.writeFile, lookupFile]

theorem lookupFile_writeFile_ne (fs : FS) (p q : FPath) (sz : Nat) (h : q ≠ p) :
    lookupFile (fs.writeFile p sz).files q = lookupFile fs.files q := by
  rw [FS.writeFile]
  show lookupFile ((p, sz) :: _) q = _
  rw [lookupFile, if_neg (by simpa using Ne.symm h)]
  apply lookupFile_filter_same
  intro s
  simp [h]

theorem underDir_append_singleton (d : FPath) (x : String) :
    underDir d (d ++ [x]) = true := by
  induction d with
  | nil => rfl
  | cons a as ih => simp [underDir, ih]

theorem lookupFile_clean_of_under (fs : FS) (d q : FPath) (h : underDir d q = true) :
    lookupFile (clean_directory fs d).files q = none := by
  apply lookupFile_filter_none
  intro s
  simp [h]

theorem lookupFile_clean_of_not_under (fs : FS) (d q : FPath) (h : underDir d q = false) :
    lookupFile (clean_directory fs d).files q = lookupFile fs.files q := by
  apply lookupFile_filter_same
  intro s
  simp [h]

theorem chunkPath_ne (p : FPath) (nm : String) :
    p ≠ (p.dropLast ++ ["chunks"]) ++ [nm] := by
  intro h
  have hlen := congrArg List.length h
  simp [List.length_dropLast] at hlen
  omega

/-! ### Lemmas about the chunk-writing loop -/

theorem writeChunks_shape (fa : Option Nat) (d : FPath) (b : String) :
    ∀ (szs : List Nat) (i : Nat) (fs : FS) (ps : List FPath),
      (writeChunks fa d b szs i fs).1 = some ps →
      ∀ q ∈ ps, ∃ nm, q = d ++ [nm] := by
  intro szs
  induction szs with
  | nil =>
    intro i fs ps h q hq
    simp [writeChunks] at h
    subst h
    simp at hq
  | cons sz rest ih =>
    intro i fs ps h q hq
    rw [writeChunks] at h
    split at h
    · simp at h
    · rcases Option.map_eq_some'.mp h with ⟨ps', hps', rfl⟩
      rcases List.mem_cons.mp hq with hq | hq
      · exact ⟨chunkName b i, hq⟩
      · exact ih (i + 1) _ ps' hps' q hq

theorem writeChunks_length (fa : Option Nat) (d : FPath) (b : String) :
    ∀ (szs : List Nat) (i : Nat) (fs : FS) (ps : List FPath),
      (writeChunks fa d b szs i fs).1 = some ps →
      ps.length = szs.length := by
  intro szs
  induction szs with
  | nil =>
    intro i fs ps h
    simp [writeChunks] at h
    subst h
    rfl
  | cons sz rest ih =>
    intro i fs ps h
    rw [writeChunks] at h
    split at h
    · simp at h
    · rcases Option.map_eq_some'.mp h with ⟨ps', hps', rfl⟩
      simp [ih (i + 1) _ ps' hps']

theorem writeChunks_lookup_ne (fa : Option Nat) (d : FPath) (b : String) :
    ∀ (szs : List Nat) (i : Nat) (fs : FS) (q : FPath),
      (∀ nm, q ≠ d ++ [nm]) →
      lookupFile (writeChunks fa d b szs i fs).2.files q = lookupFile fs.files q := by
  intro szs
  induction szs with
  | nil => intro i fs q _; rfl
  | cons sz rest ih =>
    intro i fs q hq
    rw [writeChunks]
    split
    · rfl
    · show lookupFile
          (writeChunks fa d b rest (i + 1) (fs.writeFile (d ++ [chunkName b i]) sz)).2.files q =
        lookupFile fs.files q
      rw [ih (i + 1) _ q hq]
      exact lookupFile_writeFile_ne fs _ q sz (hq (chunkName b i))

theorem writeChunks_lookup_or (fa : Option Nat) (d : FPath) (b : String) :
    ∀ (szs : List Nat) (i : Nat) (fs : FS) (q : FPath),
      lookupFile (writeChunks fa d b szs i fs).2.files q = lookupFile fs.files q ∨
      ∃ s ∈ szs, lookupFile (writeChunks fa d b szs i fs).2.files q = some s := by
  intro szs
  induction szs with
  | nil => intro i fs q; left; rfl
  | cons sz rest ih =>
    intro i fs q
    rw [writeChunks]
    split
    · left; rfl
    · show lookupFile
          (writeChunks fa d b rest (i + 1) (fs.writeFile (d ++ [chunkName b i]) sz)).2.files q =
          lookupFile fs.files q ∨
        ∃ s ∈ sz :: rest, lookupFile
          (writeChunks fa d b rest (i + 1) (fs.writeFile (d ++ [chunkName b i]) sz)).2.files q =
          some s
      rcases ih (i + 1) (fs.writeFile (d ++ [chunkName b i]) sz) q with key | ⟨s, hs, hlook⟩
      · by_cases hqc : q = d ++ [chunkName b i]
        · right
          refine ⟨sz, List.mem_cons_self _ _, ?_⟩
          rw [key, hqc]
          exact lookupFile_writeFile_self fs (d ++ [chunkName b i]) sz
        · left
          rw [key]
          exact lookupFile_writeFile_ne fs _ q sz hqc
      · right
        exact ⟨s, List.mem_cons_of_mem _ hs, hlook⟩

/-! ### Lemmas about chunk sizes -/

theorem chunkSizesF_bounds (c : Nat) :
    ∀ (fuel n : Nat), ∀ s ∈ chunkSizesF c fuel n, 0 < s ∧ s ≤ c := by
  intro fuel
  induction fuel with
  | zero => intro n s hs; simp [chunkSizesF] at hs
  | succ f ih =>
    intro n s hs
    by_cases hcond : c = 0 ∨ n = 0
    · simp [chunkSizesF, if_pos hcond] at hs
    · rw [chunkSizesF, if_neg hcond, List.mem_cons] at hs
      push_neg at hcond
      rcases hs with hs | hs
      · subst hs
        exact ⟨by omega, Nat.min_le_left c n⟩
      · exact ih (n - c) s hs

theorem chunkSizes_bounds (c n : Nat) : ∀ s ∈ chunkSizes c n, 0 < s ∧ s ≤ c :=
  chunkSizesF_bounds c (n / c + 1) n

theorem chunkSizes_ne_nil (c n : Nat) (hc : c ≠ 0) (hn : n ≠ 0) :
    chunkSizes c n ≠ [] := by
  rw [chunkSizes, chunkSizesF, if_neg (by simp [hc, hn])]
  simp

/-- Every fragment file written by a successful chunk loop exists in the
final state with a size in `(0, m]` when every chunk size is in `(0, m]`. -/
theorem writeChunks_written (fa : Option Nat) (d : FPath) (b : String) (m : Nat) :
    ∀ (szs : List Nat) (i : Nat) (fs : FS) (ps : List FPath),
      (∀ s ∈ szs, 0 < s ∧ s ≤ m) →
      (writeChunks fa d b szs i fs).1 = some ps →
      ∀ q ∈ ps, ∃ s, lookupFile (writeChunks fa d b szs i fs).2.files q = some s ∧
        0 < s ∧ s ≤ m := by
  intro szs
  induction szs with
  | nil =>
    intro i fs ps _ h q hq
    simp [writeChunks] at h
    subst h
    simp at hq
  | cons sz rest ih =>
    intro i fs ps hb h q hq
    by_cases hfail : fa = some i
    · rw [writeChunks, if_pos hfail] at h
      simp at h
    · rw [writeChunks, if_neg hfail] at h ⊢
      rcases Option.map_eq_some'.mp h with ⟨ps', hps', rfl⟩
      show ∃ s, lookupFile
          (writeChunks fa d b rest (i + 1) (fs.writeFile (d ++ [chunkName b i]) sz)).2.files q =
          some s ∧ 0 < s ∧ s ≤ m
      rcases List.mem_cons.mp hq with hq | hq
      · subst hq
        rcases writeChunks_lookup_or fa d b rest (i + 1)
            (fs.writeFile (d ++ [chunkName b i]) sz) (d ++ [chunkName b i]) with key | ⟨s, hs, key⟩
        · refine ⟨sz, ?_, (hb sz (List.mem_cons_self _ _)).1, (hb sz (List.mem_cons_self _ _)).2⟩
          rw [key]
          exact lookupFile_writeFile_self fs (d ++ [chunkName b i]) sz
        · exact ⟨s, key, (hb s (List.mem_cons_of_mem _ hs)).1, (hb s (List.mem_cons_of_mem _ hs)).2⟩
      · exact ih (i + 1) (fs.writeFile (d ++ [chunkName b i]) sz) ps'
          (fun s hs => hb s (List.mem_cons_of_mem _ hs)) hps' q hq

/-! ### Lemmas about `split_large_file` and the upload loop -/

theorem split_eq_of_none (e : Bool) (fa : Option Nat) (fs : FS) (p : FPath)
    (h : lookupFile fs.files p = none) :
    split_large_file e fa fs p = (none, fs) := by
  rw [split_large_file, h]

theorem split_eq_of_some (e : Bool) (fa : Option Nat) (fs : FS) (p : FPath) (sz : Nat)
    (h : lookupFile fs.files p = some sz) :
    split_large_file e fa fs p =
      if sz ≤ MAX_SINGLE_FILE_SIZE then (none, fs)
      else if e = false then (none, fs)
      else writeChunks fa (p.dropLast ++ ["chunks"]) (p.getLastD "")
        (chunkSizes CHUNK_SIZE sz) 0 (fs.addDir (p.dropLast ++ ["chunks"])) := by
  rw [split_large_file, h]

theorem upload_single_eq_of_none (nI nG : FPath → Bool) (fs : FS) (p : FPath)
    (h : lookupFile fs.files p = none) :
    upload_single_file nI nG fs p = (false, fs) := by
  rw [upload_single_file, h]

theorem upload_single_eq_of_some (nI nG : FPath → Bool) (fs : FS) (p : FPath) (sz : Nat)
    (h : lookupFile fs.files p = some sz) :
    upload_single_file nI nG fs p =
      if sz = 0 then (false, fs.removeFile p)
      else if MAX_SINGLE_FILE_SIZE < sz then (false, fs.removeFile p)
      else if nI p then (true, fs.removeFile p)
      else if nG p then (true, fs.removeFile p)
      else (false, fs) := by
  rw [upload_single_file, h]

theorem split_some_spec (e : Bool) (fa : Option Nat) (fs : FS) (p : FPath)
    (chunks : List FPath) (hs : (split_large_file e fa fs p).1 = some chunks) :
    ∃ sz, lookupFile fs.files p = some sz ∧ MAX_SINGLE_FILE_SIZE < sz ∧
      split_large_file e fa fs p =
        writeChunks fa (p.dropLast ++ ["chunks"]) (p.getLastD "")
          (chunkSizes CHUNK_SIZE sz) 0 (fs.addDir (p.dropLast ++ ["chunks"])) := by
  rcases hlook : lookupFile fs.files p with _ | sz
  · rw [split_eq_of_none e fa fs p hlook] at hs
    simp at hs
  · rw [split_eq_of_some e fa fs p sz hlook] at hs
    by_cases h1 : sz ≤ MAX_SINGLE_FILE_SIZE
    · rw [if_pos h1] at hs; simp at hs
    · rw [if_neg h1] at hs
      by_cases h2 : e = false
      · rw [if_pos h2] at hs; simp at hs
      · rw [if_neg h2] at hs
        refine ⟨sz, rfl, by omega, ?_⟩
        rw [split_eq_of_some e fa fs p sz hlook, if_neg h1, if_neg h2]

theorem split_snd_lookup (e : Bool) (fa : Option Nat) (fs : FS) (p : FPath) :
    lookupFile (split_large_file e fa fs p).2.files p = lookupFile fs.files p := by
  rcases hlook : lookupFile fs.files p with _ | sz
  · rw [split_eq_of_none e fa fs p hlook, hlook]
  · rw [split_eq_of_some e fa fs p sz hlook]
    by_cases h1 : sz ≤ MAX_SINGLE_FILE_SIZE
    · rw [if_pos h1]; exact hlook
    · rw [if_neg h1]
      by_cases h2 : e = false
      · rw [if_pos h2]; exact hlook
      · rw [if_neg h2]
        rw [writeChunks_lookup_ne fa _ _ _ 0 _ p (fun nm => chunkPath_ne p nm)]
        exact hlook

theorem upload_single_lookup_ne (nI nG : FPath → Bool) (fs : FS) (c q : FPath)
    (h : q ≠ c) :
    lookupFile (upload_single_file nI nG fs c).2.files q = lookupFile fs.files q := by
  rcases hlook : lookupFile fs.files c with _ | sz
  · rw [upload_single_eq_of_none nI nG fs c hlook]
  · rw [upload_single_eq_of_some nI nG fs c sz hlook]
    split_ifs <;> first
      | rfl
      | exact lookupFile_removeFile_ne fs c q h

theorem uploadChunks_lookup_not_mem (nI nG : FPath → Bool) :
    ∀ (cs : List FPath) (fs : FS) (q : FPath), q ∉ cs →
      lookupFile (uploadChunks nI nG fs cs).2.files q = lookupFile fs.files q := by
  intro cs
  induction cs with
  | nil => intro fs q _; rfl
  | cons c rest ih =>
    intro fs q hq
    rw [uploadChunks]
    show lookupFile (uploadChunks nI nG (upload_single_file nI nG fs c).2 rest).2.files q = _
    rw [ih _ q (fun h => hq (List.mem_cons_of_mem _ h))]
    exact upload_single_lookup_ne nI nG fs c q (fun h => hq (h ▸ List.mem_cons_self _ _))

/-- A fragment for which both providers fail is never deleted by the
fragment upload loop (and keeps its size). -/
theorem uploadChunks_failed_retained (nI nG : FPath → Bool) :
    ∀ (cs : List FPath) (fs : FS) (q : FPath) (s : Nat),
      lookupFile fs.files q = some s → 0 < s → s ≤ MAX_SINGLE_FILE_SIZE →
      nI q = false → nG q = false →
      lookupFile (uploadChunks nI nG fs cs).2.files q = some s := by
  intro cs
  induction cs with
  | nil => intro fs q s hq _ _ _ _; exact hq
  | cons c rest ih =>
    intro fs q s hq hs0 hsM hnI hnG
    rw [uploadChunks]
    show lookupFile (uploadChunks nI nG (upload_single_file nI nG fs c).2 rest).2.files q = _
    apply ih _ q s _ hs0 hsM hnI hnG
    by_cases hqc : q = c
    · subst hqc
      rw [upload_single_eq_of_some nI nG fs q s hq, if_neg (by omega),
        if_neg (by omega), hnI, hnG]
      simpa using hq
    · rw [upload_single_lookup_ne nI nG fs c q hqc]
      exact hq

theorem is_valid_file_eq (fs : FS) (p : FPath) (sz : Nat)
    (h : lookupFile fs.files p = some sz) :
    is_valid_file fs p = decide (0 < sz) := by
  rw [is_valid_file, h]

theorem upload_file_eq_chunked (e : Bool) (fa : Option Nat) (nI nG : FPath → Bool)
    (fs fs1 : FS) (p : FPath) (chunks : List FPath)
    (hvalid : is_valid_file fs p = true)
    (hpair : split_large_file e fa fs p = (some chunks, fs1))
    (hne : chunks ≠ []) :
    upload_file e fa nI nG fs p =
      if (uploadChunks nI nG fs1 chunks).1 then
        (true, (clean_directory (uploadChunks nI nG fs1 chunks).2
          ((chunks.headD []).dropLast)).removeFile p)
      else (false, (uploadChunks nI nG fs1 chunks).2) := by
  rw [upload_file, hvalid, if_neg (by simp), hpair]
  show (if chunks = [] then upload_single_file nI nG fs1 p
        else if (uploadChunks nI nG fs1 chunks).1 then
          (true, (clean_directory (uploadChunks nI nG fs1 chunks).2
            ((chunks.headD []).dropLast)).removeFile p)
        else (false, (uploadChunks nI nG fs1 chunks).2)) = _
  rw [if_neg hne]

/-- C1 (amended): in a chunked delivery through `upload_file`, if every
fragment upload succeeds then the fragment group, the `chunks` staging
directory content and the original file are all deleted; if the fragment
loop fails, `upload_file` returns `False`, the original source file is
retained untouched, and every fragment on which both providers fail is
retained — but fragments whose own upload succeeded have already been
deleted individually by `_upload_single_file` (see the counterexample),
so "every fragment still exists" does not hold as originally claimed. -/
theorem C1_fragment_group_cleanup (e : Bool) (fa : Option Nat) (nI nG : FPath → Bool)
    (fs : FS) (p : FPath) (chunks : List FPath)
    (hs : (split_large_file e fa fs p).1 = some chunks) :
    ((uploadChunks nI nG (split_large_file e fa fs p).2 chunks).1 = true →
      (upload_file e fa nI nG fs p).1 = true ∧
      (∀ q ∈ chunks, lookupFile (upload_file e fa nI nG fs p).2.files q = none) ∧
      lookupFile (upload_file e fa nI nG fs p).2.files p = none) ∧
    ((uploadChunks nI nG (split_large_file e fa fs p).2 chunks).1 = false →
      (upload_file e fa nI nG fs p).1 = false ∧
      lookupFile (upload_file e fa nI nG fs p).2.files p = lookupFile fs.files p ∧
      (lookupFile fs.files p).isSome = true ∧
      (∀ q ∈ chunks, nI q = false → nG q = false →
        (lookupFile (upload_file e fa nI nG fs p).2.files q).isSome = true)) := by
  obtain ⟨sz, hlook, hbig, heq⟩ := split_some_spec e fa fs p chunks hs
  have hMpos : 0 < MAX_SINGLE_FILE_SIZE := by norm_num [MAX_SINGLE_FILE_SIZE]
  have hszpos : sz ≠ 0 := by omega
  have hvalid : is_valid_file fs p = true := by
    rw [is_valid_file_eq fs p sz hlook]
    simp
    omega
  have hpair : split_large_file e fa fs p =
      (some chunks, (split_large_file e fa fs p).2) := by
    rw [← hs]
  have hw1 : (writeChunks fa (p.dropLast ++ ["chunks"]) (p.getLastD "")
      (chunkSizes CHUNK_SIZE sz) 0 (fs.addDir (p.dropLast ++ ["chunks"]))).1 =
      some chunks := by
    rw [← heq]; exact hs
  have hlen := writeChunks_length fa _ _ _ 0 _ chunks hw1
  have hCc : CHUNK_SIZE ≠ 0 := by norm_num [CHUNK_SIZE]
  have hcne : chunks ≠ [] := by
    intro hnil
    apply chunkSizes_ne_nil CHUNK_SIZE sz hCc hszpos
    rw [hnil] at hlen
    simp at hlen
    exact List.length_eq_zero.mp hlen.symm
  have hshape := writeChunks_shape fa _ _ _ 0 _ chunks hw1
  have hq_ne_p : ∀ q ∈ chunks, q ≠ p := by
    intro q hq
    obtain ⟨nm, rfl⟩ := hshape q hq
    exact fun h => chunkPath_ne p nm h.symm
  have hsnd : (split_large_file e fa fs p).2 =
      (writeChunks fa (p.dropLast ++ ["chunks"]) (p.getLastD "")
        (chunkSizes CHUNK_SIZE sz) 0 (fs.addDir (p.dropLast ++ ["chunks"]))).2 := by
    rw [heq]
  have hhead : (chunks.headD []).dropLast = p.dropLast ++ ["chunks"] := by
    obtain ⟨q0, rest, rfl⟩ := List.exists_cons_of_ne_nil hcne
    obtain ⟨nm0, hq0⟩ := hshape q0 (List.mem_cons_self _ _)
    simp [hq0]
  have hrun := upload_file_eq_chunked e fa nI nG fs (split_large_file e fa fs p).2
    p chunks hvalid hpair hcne
  constructor
  · intro hA
    rw [hrun, if_pos hA]
    refine ⟨rfl, ?_, lookupFile_removeFile_self _ p⟩
    intro q hq
    obtain ⟨nm, rfl⟩ := hshape q hq
    apply lookupFile_removeFile_of_none
    rw [hhead]
    exact lookupFile_clean_of_under _ _ _ (underDir_append_singleton _ nm)
  · intro hB
    rw [hrun, if_neg (by simp [hB])]
    have hpnot : p ∉ chunks := fun hmem => hq_ne_p p hmem rfl
    refine ⟨rfl, ?_, by rw [hlook]; rfl, ?_⟩
    · rw [uploadChunks_lookup_not_mem nI nG chunks _ p hpnot]
      exact split_snd_lookup e fa fs p
    · intro q hq hnIq hnGq
      have hbounds : ∀ s ∈ chunkSizes CHUNK_SIZE sz, 0 < s ∧ s ≤ CHUNK_SIZE :=
        chunkSizes_bounds CHUNK_SIZE sz
      obtain ⟨s, hfs1, hs0, hsC⟩ := writeChunks_written fa _ _ CHUNK_SIZE _ 0 _ chunks
        hbounds hw1 q hq
      have hsM : s ≤ MAX_SINGLE_FILE_SIZE := by
        have hCM : CHUNK_SIZE = MAX_SINGLE_FILE_SIZE := rfl
        omega
      have := uploadChunks_failed_retained nI nG chunks (split_large_file e fa fs p).2
        q s (by rw [hsnd]; exact hfs1) hs0 hsM hnIq hnGq
      rw [this]
      rfl

/-- C1 (counterexample to the claim as stated): a 100 MiB file is split
into two fragments; the first fragment's upload succeeds (and
`_upload_single_file` deletes it on the spot, core.py lines 637-639), the
second fragment's upload fails, so the delivery returns `False` — yet the
first fragment no longer exists on disk, contradicting "every fragment
file ... still exist[s] on disk". -/
theorem C1_counterexample :
    (split_large_file true none ⟨[(["f"], 104857600)], []⟩ ["f"]).1 =
      some [["chunks", "f.part000"], ["chunks", "f.part001"]] ∧
    (upload_file true none (fun q => decide (q = ["chunks", "f.part000"])) (fun _ => false)
      ⟨[(["f"], 104857600)], []⟩ ["f"]).1 = false ∧
    lookupFile (upload_file true none (fun q => decide (q = ["chunks", "f.part000"]))
      (fun _ => false) ⟨[(["f"], 104857600)], []⟩ ["f"]).2.files
      ["chunks", "f.part000"] = none := by
  decide

theorem C1_fragment_group_cleanup_witness :
    (upload_file true none (fun _ => true) (fun _ => true)
      ⟨[(["f"], 104857600)], []⟩ ["f"]).1 = true ∧
    lookupFile (upload_file true none (fun _ => true) (fun _ => true)
      ⟨[(["f"], 104857600)], []⟩ ["f"]).2.files ["f"] = none :=
  ⟨((C1_fragment_group_cleanup true none (fun _ => true) (fun _ => true)
      ⟨[(["f"], 104857600)], []⟩ ["f"]
      [["chunks", "f.part000"], ["chunks", "f.part001"]] (by decide)).1 (by decide)).1,
   ((C1_fragment_group_cleanup true none (fun _ => true) (fun _ => true)
      ⟨[(["f"], 104857600)], []⟩ ["f"]
      [["chunks", "f.part000"], ["chunks", "f.part001"]] (by decide)).1 (by decide)).2.2⟩

/-- C5 (amended): for a missing, non-regular or zero-size path,
`upload_file` fails immediately with no network attempt (the result does
not depend on either provider oracle) and leaves the filesystem — in
particular the invalid file, if present — untouched; it does **not**
delete the file (`upload_file` returns at line 361 before any deletion
point is reached). -/
theorem C5_invalid_input_rejected (e : Bool) (fa : Option Nat) (fs : FS) (p : FPath)
    (h : is_valid_file fs p = false) :
    ∀ nI nG, upload_file e fa nI nG fs p = (false, fs) := by
  intro nI nG
  rw [upload_file, h, if_pos rfl]

/-- C5 (counterexample to the claim as stated): a present zero-size file
makes `upload_file` return `False` with no network attempt, but the file
is still on disk afterwards, contradicting "deletes the file if it is
present". -/
theorem C5_counterexample :
    is_valid_file ⟨[(["z"], 0)], []⟩ ["z"] = false ∧
    (upload_file true none (fun _ => true) (fun _ => true) ⟨[(["z"], 0)], []⟩ ["z"]).1 =
      false ∧
    lookupFile (upload_file true none (fun _ => true) (fun _ => true)
      ⟨[(["z"], 0)], []⟩ ["z"]).2.files ["z"] = some 0 := by
  decide

theorem C5_invalid_input_rejected_witness :
    is_valid_file ⟨[], []⟩ ["missing"] = false ∧
    upload_file true none (fun _ => true) (fun _ => false) ⟨[], []⟩ ["missing"] =
      (false, ⟨[], []⟩) :=
  ⟨by decide,
   C5_invalid_input_rejected true none ⟨[], []⟩ ["missing"] (by decide)
     (fun _ => true) (fun _ => false)⟩

/-- C9: when an oversize file's split fails (`split_large_file` returns
`None`, e.g. because the `chunks` staging directory cannot be created or
chunking raises `OSError`), `upload_file` falls through to
`_upload_single_file`, whose oversize check deletes the local file and
returns `False` — the oversize artifact is not retained for retry. -/
theorem C9_oversize_not_retained (e : Bool) (fa : Option Nat) (nI nG : FPath → Bool)
    (fs : FS) (p : FPath) (sz : Nat)
    (hp : lookupFile fs.files p = some sz) (hbig : MAX_SINGLE_FILE_SIZE < sz)
    (hn : (split_large_file e fa fs p).1 = none) :
    (upload_file e fa nI nG fs p).1 = false ∧
    lookupFile (upload_file e fa nI nG fs p).2.files p = none := by
  have hMpos : 0 < MAX_SINGLE_FILE_SIZE := by norm_num [MAX_SINGLE_FILE_SIZE]
  have hvalid : is_valid_file fs p = true := by
    rw [is_valid_file_eq fs p sz hp]
    simp
    omega
  have hpair : split_large_file e fa fs p = (none, (split_large_file e fa fs p).2) := by
    rw [← hn]
  have hlook1 : lookupFile (split_large_file e fa fs p).2.files p = some sz := by
    rw [split_snd_lookup]
    exact hp
  rw [upload_file, hvalid, if_neg (by simp), hpair]
  show (upload_single_file nI nG (split_large_file e fa fs p).2 p).1 = false ∧
    lookupFile (upload_single_file nI nG (split_large_file e fa fs p).2 p).2.files p = none
  rw [upload_single_eq_of_some nI nG _ p sz hlook1, if_neg (by omega), if_pos hbig]
  exact ⟨rfl, lookupFile_removeFile_self _ p⟩

theorem C9_oversize_not_retained_witness :
    lookupFile (FS.mk [(["g"], 52428801)] []).files ["g"] = some 52428801 ∧
    MAX_SINGLE_FILE_SIZE < 52428801 ∧
    (split_large_file false none ⟨[(["g"], 52428801)], []⟩ ["g"]).1 = none ∧
    ((upload_file false none (fun _ => false) (fun _ => false)
        ⟨[(["g"], 52428801)], []⟩ ["g"]).1 = false ∧
      lookupFile (upload_file false none (fun _ => false) (fun _ => false)
        ⟨[(["g"], 52428801)], []⟩ ["g"]).2.files ["g"] = none) :=
  ⟨by decide, by decide, by decide,
   C9_oversize_not_retained false none (fun _ => false) (fun _ => false)
     ⟨[(["g"], 52428801)], []⟩ ["g"] 52428801 (by decide) (by decide) (by decide)⟩

/-- C10: `split_large_file` answers `None` for a missing path, for a file
at or below the ceiling (the documented no-split-needed case), and on I/O
failure while chunking (staging directory creation failure, or an
`OSError` at the first chunk) — the same constructor in all three cases,
so a caller receiving `None` cannot tell them apart at the interface. -/
theorem C10_none_indistinguishable (fs : FS) (p : FPath) :
    (lookupFile fs.files p = none →
      ∀ e fa, (split_large_file e fa fs p).1 = none) ∧
    (∀ sz, lookupFile fs.files p = some sz → sz ≤ MAX_SINGLE_FILE_SIZE →
      ∀ e fa, (split_large_file e fa fs p).1 = none) ∧
    (∀ sz, lookupFile fs.files p = some sz → MAX_SINGLE_FILE_SIZE < sz →
      ∀ fa, (split_large_file false fa fs p).1 = none ∧
        (split_large_file true (some 0) fs p).1 = none) := by
  refine ⟨?_, ?_, ?_⟩
  · intro h e fa
    rw [split_eq_of_none e fa fs p h]
  · intro sz h hle e fa
    rw [split_eq_of_some e fa fs p sz h, if_pos hle]
  · intro sz h hbig fa
    have hMpos : 0 < MAX_SINGLE_FILE_SIZE := by norm_num [MAX_SINGLE_FILE_SIZE]
    constructor
    · rw [split_eq_of_some false fa fs p sz h, if_neg (by omega), if_pos rfl]
    · rw [split_eq_of_some true (some 0) fs p sz h, if_neg (by omega),
        if_neg (by simp)]
      have hCc : CHUNK_SIZE ≠ 0 := by norm_num [CHUNK_SIZE]
      have hne := chunkSizes_ne_nil CHUNK_SIZE sz hCc (by omega)
      obtain ⟨s0, rest, hcs⟩ := List.exists_cons_of_ne_nil hne
      rw [hcs, writeChunks, if_pos rfl]

theorem C10_none_indistinguishable_witness :
    (split_large_file true none ⟨[], []⟩ ["m"]).1 = none ∧
    (split_large_file true none ⟨[(["s"], 7)], []⟩ ["s"]).1 = none ∧
    ((split_large_file false none ⟨[(["b"], 52428801)], []⟩ ["b"]).1 = none ∧
      (split_large_file true (some 0) ⟨[(["b"], 52428801)], []⟩ ["b"]).1 = none) :=
  ⟨(C10_none_indistinguishable ⟨[], []⟩ ["m"]).1 (by decide) true none,
   (C10_none_indistinguishable ⟨[(["s"], 7)], []⟩ ["s"]).2.1 7 (by decide) (by decide)
     true none,
   (C10_none_indistinguishable ⟨[(["b"], 52428801)], []⟩ ["b"]).2.2 52428801 (by decide)
     (by decide) none⟩

/-- C2: for every readable file whose size strictly exceeds the
single-file ceiling, the fragments written by `split_large_file`
concatenated in ascending ordinal (`.part000`, `.part001`, ...) order —
which is their list order in `readChunks` — reproduce the original file's
bytes exactly, for all such sizes including exact multiples of the chunk
size, and no fragment (in particular no trailing one) is empty. -/
theorem C2_chunk_split_lossless (content : List Nat)
    (hbig : MAX_SINGLE_FILE_SIZE < content.length) :
    (readChunks CHUNK_SIZE content).flatten = content ∧
    (∀ ch ∈ readChunks CHUNK_SIZE content, ch ≠ []) :=
  ⟨readChunks_join CHUNK_SIZE (by norm_num [CHUNK_SIZE]) content,
   readChunks_ne_nil CHUNK_SIZE content⟩

theorem C2_chunk_split_lossless_witness :
    MAX_SINGLE_FILE_SIZE < (List.replicate 52428801 0).length ∧
    ((readChunks CHUNK_SIZE (List.replicate 52428801 0)).flatten =
        List.replicate 52428801 0 ∧
      (∀ ch ∈ readChunks CHUNK_SIZE (List.replicate 52428801 0), ch ≠ [])) :=
  ⟨by norm_num [MAX_SINGLE_FILE_SIZE],
   C2_chunk_split_lossless (List.replicate 52428801 0)
     (by norm_num [MAX_SINGLE_FILE_SIZE])⟩

/-!
## Primary-provider upload timeouts (`_upload_single_file_infini`,
core.py lines 446-455)

Python computes `int(file_size / 1024 / 1024 * 5)` (resp. `* 6`) in
floats.  Division by the power of two `1048576` is exact in double
precision, and for every size the function can reach (it has already
rejected sizes above `MAX_SINGLE_FILE_SIZE = 52428800` at line 423) the
subsequent product by 5 or 6 is exact as well, so the truncated result is
the integer `file_size * 5 / 1048576` (resp. `* 6`).
-/

/-- The `(connect_timeout, read_timeout)` pair `_upload_single_file_infini`
selects for a file of `file_size` bytes. -/
def uploadTimeouts (file_size : Nat) : Nat × Nat :=
  if file_size < 1024 * 1024 then (10, 30)
  else if file_size < 10 * 1024 * 1024 then
    (15, max 30 (file_size * 5 / (1024 * 1024)))
  else (20, max 60 (file_size * 6 / (1024 * 1024)))

/-- C8: the primary-provider timeouts are `(10, 30)` below 1 MiB;
`(15, max 30 ⌊s·5/MiB⌋)` from 1 MiB up to 10 MiB, with read timeout never
below 30 s; and `(20, max 60 ⌊s·6/MiB⌋)` from 10 MiB on, with read
timeout never below 60 s. -/
theorem C8_timeout_tiers (s : Nat) :
    (s < 1024 * 1024 → uploadTimeouts s = (10, 30)) ∧
    (1024 * 1024 ≤ s → s < 10 * 1024 * 1024 →
      uploadTimeouts s = (15, max 30 (s * 5 / (1024 * 1024))) ∧
      30 ≤ (uploadTimeouts s).2) ∧
    (10 * 1024 * 1024 ≤ s →
      uploadTimeouts s = (20, max 60 (s * 6 / (1024 * 1024))) ∧
      60 ≤ (uploadTimeouts s).2) := by
  refine ⟨?_, ?_, ?_⟩
  · intro h
    rw [uploadTimeouts, if_pos h]
  · intro h1 h2
    rw [uploadTimeouts, if_neg (by omega), if_pos h2]
    exact ⟨rfl, le_max_left _ _⟩
  · intro h
    rw [uploadTimeouts, if_neg (by omega), if_neg (by omega)]
    exact ⟨rfl, le_max_left _ _⟩

theorem C8_timeout_tiers_witness :
    uploadTimeouts 500000 = (10, 30) ∧
    uploadTimeouts (5 * 1024 * 1024) = (15, max 30 (5 * 1024 * 1024 * 5 / (1024 * 1024))) ∧
    uploadTimeouts (20 * 1024 * 1024) = (20, max 60 (20 * 1024 * 1024 * 6 / (1024 * 1024))) :=
  ⟨(C8_timeout_tiers 500000).1 (by decide),
   ((C8_timeout_tiers (5 * 1024 * 1024)).2.1 (by decide) (by decide)).1,
   ((C8_timeout_tiers (20 * 1024 * 1024)).2.2 (by decide)).1⟩

/-!
## Bin-Packing Splitter (`split_large_directory`, core.py lines 767-901)

Modelled at the assignment level: the walk over `folder_path` produces
`entries` (one `(path, size)` pair per file; zero-size files and files
whose `stat` fails contribute nothing and are skipped by the walk loop at
lines 795-804, modelled by the positivity filter).  Staging copies and
per-bin compression only materialize the computed bins, so the claims
about bin count and whole-file assignment are claims about this
skeleton; the function is considered in an environment where staging
directories can be created (`_ensure_directory` succeeds).
-/

/-- Python's stable descending sort
`sorted(file_sizes.items(), key=lambda x: x[1], reverse=True)`:
insert `x` before the first element whose size is at most `x`'s, keeping
earlier-listed files first among equal sizes. -/
def insertDesc (x : String × Nat) : List (String × Nat) → List (String × Nat)
  | [] => [x]
  | y :: ys => if y.2 ≤ x.2 then x :: y :: ys else y :: insertDesc x ys

/-- Stable descending-by-size sort (insertion sort formulation). -/
def sortBySizeDesc : List (String × Nat) → List (String × Nat)
  | [] => []
  | x :: xs => insertDesc x (sortBySizeDesc xs)

/-- `current_chunk_size` of a bin. -/
def binSize (bin : List (String × Nat)) : Nat := (bin.map (fun e => e.2)).sum

/-- One iteration of the greedy assignment loop (core.py lines 822-859):
close the current bin when adding the next file would exceed the
capacity and the bin is nonempty, then append the file to the (possibly
fresh) current bin. -/
def greedyStep (cap : Nat) (st : List (List (String × Nat)) × List (String × Nat))
    (x : String × Nat) : List (List (String × Nat)) × List (String × Nat) :=
  if st.2 ≠ [] ∧ cap < binSize st.2 + x.2 then (st.1 ++ [st.2], [x])
  else (st.1, st.2 ++ [x])

/-- All bins opened by the greedy loop, in order (the trailing nonempty
bin is closed after the loop, lines 861-887). -/
def greedyBins (cap : Nat) (files : List (String × Nat)) : List (List (String × Nat)) :=
  if (files.foldl (greedyStep cap) ([], [])).2 = [] then
    (files.foldl (greedyStep cap) ([], [])).1
  else
    (files.foldl (greedyStep cap) ([], [])).1 ++ [(files.foldl (greedyStep cap) ([], [])).2]

/-- Sum of the nonzero file sizes collected by the walk. -/
def totalSize (entries : List (String × Nat)) : Nat :=
  ((entries.filter (fun e => decide (0 < e.2))).map (fun e => e.2)).sum

/-- `split_large_directory` (core.py lines 767-901), assignment skeleton:
fail when there is no nonzero file or when the largest file alone exceeds
the capacity (`sorted_files[0][1] > MAX_CHUNK_SIZE`, line 814); otherwise
the ordered list of bins the greedy loop forms. -/
def split_large_directory (cap : Nat) (entries : List (String × Nat)) :
    Option (List (List (String × Nat))) :=
  if entries.filter (fun e => decide (0 < e.2)) = [] then none
  else if cap < ((sortBySizeDesc (entries.filter (fun e => decide (0 < e.2)))).headD
      ("", 0)).2 then none
  else some (greedyBins cap (sortBySizeDesc (entries.filter (fun e => decide (0 < e.2)))))

/-! ### Sorting lemmas -/

theorem insertDesc_perm (x : String × Nat) (l : List (String × Nat)) :
    List.Perm (insertDesc x l) (x :: l) := by
  induction l with
  | nil => exact List.Perm.refl _
  | cons y ys ih =>
    rw [insertDesc]
    split
    · exact List.Perm.refl _
    · exact List.Perm.trans (List.Perm.cons y ih) (List.Perm.swap x y ys)

theorem sortBySizeDesc_perm (l : List (String × Nat)) :
    List.Perm (sortBySizeDesc l) l := by
  induction l with
  | nil => exact List.Perm.refl _
  | cons x xs ih =>
    rw [sortBySizeDesc]
    exact List.Perm.trans (insertDesc_perm x (sortBySizeDesc xs)) (List.Perm.cons x ih)

theorem insertDesc_pairwise (x : String × Nat) (l : List (String × Nat))
    (h : List.Pairwise (fun a b => b.2 ≤ a.2) l) :
    List.Pairwise (fun a b => b.2 ≤ a.2) (insertDesc x l) := by
  induction l with
  | nil => simp [insertDesc]
  | cons y ys ih =>
    rw [insertDesc]
    rcases List.pairwise_cons.mp h with ⟨hy, hys⟩
    split
    · next hle =>
      refine List.pairwise_cons.mpr ⟨?_, h⟩
      intro z hz
      rcases List.mem_cons.mp hz with rfl | hz
      · exact hle
      · exact Nat.le_trans (hy z hz) hle
    · next hgt =>
      refine List.pairwise_cons.mpr ⟨?_, ih hys⟩
      intro z hz
      have hz' : z ∈ x :: ys := (insertDesc_perm x ys).mem_iff.mp hz
      rcases List.mem_cons.mp hz' with rfl | hz'
      · omega
      · exact hy z hz'

theorem sortBySizeDesc_pairwise (l : List (String × Nat)) :
    List.Pairwise (fun a b => b.2 ≤ a.2) (sortBySizeDesc l) := by
  induction l with
  | nil => simp [sortBySizeDesc]
  | cons x xs ih =>
    rw [sortBySizeDesc]
    exact insertDesc_pairwise x (sortBySizeDesc xs) ih

/-! ### Greedy-loop invariants -/

theorem greedy_fold_flatten (cap : Nat) :
    ∀ (l : List (String × Nat)) (cs : List (List (String × Nat)))
      (cur : List (String × Nat)),
      (l.foldl (greedyStep cap) (cs, cur)).1.flatten ++
        (l.foldl (greedyStep cap) (cs, cur)).2 = cs.flatten ++ cur ++ l := by
  intro l
  induction l with
  | nil => intro cs cur; simp
  | cons x xs ih =>
    intro cs cur
    rw [List.foldl_cons]
    by_cases hc : cur ≠ [] ∧ cap < binSize cur + x.2
    · rw [show greedyStep cap (cs, cur) x = (cs ++ [cur], [x]) by
        rw [greedyStep, if_pos hc]]
      rw [ih (cs ++ [cur]) [x]]
      simp
    · rw [show greedyStep cap (cs, cur) x = (cs, cur ++ [x]) by
        rw [greedyStep, if_neg hc]]
      rw [ih cs (cur ++ [x])]
      simp

theorem greedyBins_flatten (cap : Nat) (l : List (String × Nat)) :
    (greedyBins cap l).flatten = l := by
  have h := greedy_fold_flatten cap l [] []
  simp at h
  rw [greedyBins]
  split
  · next hcur =>
      rw [hcur] at h
      simpa using h
  · next hcur =>
      rw [List.flatten_append]
      simpa using h

theorem greedy_fold_closed_ne_nil (cap : Nat) :
    ∀ (l : List (String × Nat)) (cs : List (List (String × Nat)))
      (cur : List (String × Nat)),
      (∀ B ∈ cs, B ≠ []) →
      ∀ B ∈ (l.foldl (greedyStep cap) (cs, cur)).1, B ≠ [] := by
  intro l
  induction l with
  | nil => intro cs cur h; exact h
  | cons x xs ih =>
    intro cs cur h
    rw [List.foldl_cons]
    by_cases hc : cur ≠ [] ∧ cap < binSize cur + x.2
    · rw [show greedyStep cap (cs, cur) x = (cs ++ [cur], [x]) by
        rw [greedyStep, if_pos hc]]
      refine ih (cs ++ [cur]) [x] ?_
      intro B hB
      rcases List.mem_append.mp hB with hB | hB
      · exact h B hB
      · rcases List.mem_singleton.mp hB with rfl
        exact hc.1
    · rw [show greedyStep cap (cs, cur) x = (cs, cur ++ [x]) by
        rw [greedyStep, if_neg hc]]
      exact ih cs (cur ++ [x]) h

theorem greedyBins_ne_nil (cap : Nat) (l : List (String × Nat)) :
    ∀ B ∈ greedyBins cap l, B ≠ [] := by
  intro B hB
  rw [greedyBins] at hB
  split at hB
  · exact greedy_fold_closed_ne_nil cap l [] [] (by simp) B hB
  · next hcur =>
      rcases List.mem_append.mp hB with hB | hB
      · exact greedy_fold_closed_ne_nil cap l [] [] (by simp) B hB
      · rcases List.mem_singleton.mp hB with rfl
        exact hcur

/-- The adjacency fact the greedy loop guarantees: a bin is closed only
because the first file of the next bin did not fit. -/
def binR (cap : Nat) (B B' : List (String × Nat)) : Prop :=
  cap < binSize B + ((B'.map (fun e => e.2)).headD 0)

theorem firstSize_append (cur : List (String × Nat)) (x : String × Nat)
    (h : cur ≠ []) :
    ((cur ++ [x]).map (fun e => e.2)).headD 0 = (cur.map (fun e => e.2)).headD 0 := by
  rcases cur with _ | ⟨y, ys⟩
  · exact absurd rfl h
  · rfl

theorem greedy_fold_chain (cap : Nat) :
    ∀ (l : List (String × Nat)) (cs : List (List (String × Nat)))
      (cur : List (String × Nat)),
      ((cs = [] ∧ cur = []) ∨
        (cur ≠ [] ∧ List.Chain' (binR cap) (cs ++ [cur]))) →
      (((l.foldl (greedyStep cap) (cs, cur)).1 = [] ∧
          (l.foldl (greedyStep cap) (cs, cur)).2 = []) ∨
        ((l.foldl (greedyStep cap) (cs, cur)).2 ≠ [] ∧
          List.Chain' (binR cap)
            ((l.foldl (greedyStep cap) (cs, cur)).1 ++
              [(l.foldl (greedyStep cap) (cs, cur)).2]))) := by
  intro l
  induction l with
  | nil => intro cs cur h; exact h
  | cons x xs ih =>
    intro cs cur h
    rw [List.foldl_cons]
    by_cases hc : cur ≠ [] ∧ cap < binSize cur + x.2
    · rw [show greedyStep cap (cs, cur) x = (cs ++ [cur], [x]) by
        rw [greedyStep, if_pos hc]]
      refine ih (cs ++ [cur]) [x] (Or.inr ⟨by simp, ?_⟩)
      rcases h with ⟨rfl, rfl⟩ | ⟨hne, hch⟩
      · exact absurd rfl hc.1
      · rw [List.chain'_append]
        refine ⟨hch, List.chain'_singleton _, ?_⟩
        intro B hB B' hB'
        rw [List.getLast?_concat] at hB
        have hBeq : cur = B := Option.some_injective _ (Option.mem_def.mp hB)
        subst hBeq
        simp at hB'
        subst hB'
        exact hc.2
    · rw [show greedyStep cap (cs, cur) x = (cs, cur ++ [x]) by
        rw [greedyStep, if_neg hc]]
      rcases h with ⟨rfl, rfl⟩ | ⟨hne, hch⟩
      · exact ih [] [x] (Or.inr ⟨by simp, by simp⟩)
      · refine ih cs (cur ++ [x]) (Or.inr ⟨by simp, ?_⟩)
        rw [List.chain'_append] at hch ⊢
        refine ⟨hch.1, List.chain'_singleton _, ?_⟩
        intro B hB B' hB'
        simp at hB'
        subst hB'
        have := hch.2.2 B hB (cur) (by simp)
        rw [binR, firstSize_append cur x hne]
        exact this

theorem greedyBins_chain (cap : Nat) (l : List (String × Nat)) :
    List.Chain' (binR cap) (greedyBins cap l) := by
  have h := greedy_fold_chain cap l [] [] (Or.inl ⟨rfl, rfl⟩)
  rw [greedyBins]
  split
  · next hcur =>
      rcases h with ⟨h1, _⟩ | ⟨hne, _⟩
      · rw [h1]; exact List.chain'_nil
      · exact absurd hcur hne
  · next hcur =>
      rcases h with ⟨_, h2⟩ | ⟨_, hch⟩
      · exact absurd h2 hcur
      · exact hch

/-- Pairing bound for a list of bin sizes in which each closed bin plus
its successor exceeds the capacity: `⌊k/2⌋` disjoint adjacent pairs each
exceed `cap`. -/
theorem chain_pairing (cap : Nat) :
    ∀ (n : Nat) (sizes : List Nat), sizes.length ≤ n →
      List.Chain' (fun a b => cap < a + b) sizes →
      sizes.length / 2 * cap < sizes.sum ∨ sizes.length ≤ 1 := by
  intro n
  induction n with
  | zero =>
    intro sizes hlen _
    right
    omega
  | succ n ih =>
    intro sizes hlen hchain
    match sizes with
    | [] => right; simp
    | [a] => right; simp
    | a :: b :: rest =>
      have hab : cap < a + b := (List.chain'_cons.mp hchain).1
      have hrest : List.Chain' (fun a b => cap < a + b) rest :=
        ((List.chain'_cons.mp hchain).2).tail
      have hlen' : rest.length ≤ n := by
        simp at hlen
        omega
      have hsum : (a :: b :: rest).sum = a + (b + rest.sum) := by simp
      rcases ih rest hlen' hrest with hlt | hle
      · left
        have h3 : (a :: b :: rest).length / 2 = rest.length / 2 + 1 := by
          simp
          omega
        rw [h3, Nat.succ_mul, hsum]
        have := hlt
        linarith
      · left
        have h3 : (a :: b :: rest).length / 2 = 1 := by
          simp
          omega
        rw [h3, Nat.one_mul, hsum]
        omega

theorem firstSize_le_binSize (B : List (String × Nat)) :
    (B.map (fun e => e.2)).headD 0 ≤ binSize B := by
  rcases B with _ | ⟨y, ys⟩
  · simp [binSize]
  · simp [binSize]

theorem binSize_sum (bins : List (List (String × Nat))) :
    (bins.map binSize).sum = (bins.flatten.map (fun e => e.2)).sum := by
  induction bins with
  | nil => rfl
  | cons B rest ih =>
    simp [binSize, List.sum_cons, List.flatten_cons, List.map_append, List.sum_append, ih]

/-- C3 (amended): the greedy loop of `split_large_directory` is a
next-fit scheme (one open bin); for inputs whose nonzero files are each
at most the capacity it opens at most `2·⌈totalSize/capacity⌉ - 1` bins
(each closed bin plus the first file of its successor exceeds the
capacity, so ⌊k/2⌋ disjoint adjacent bin pairs each exceed it).  The
claimed bound `⌈totalSize/capacity⌉ + 1` is violated (see the
counterexample). -/
theorem C3_bin_count_bound (cap : Nat) (entries : List (String × Nat))
    (bins : List (List (String × Nat)))
    (hcap : 0 < cap)
    (hfit : ∀ e ∈ entries.filter (fun e => decide (0 < e.2)), e.2 ≤ cap)
    (hres : split_large_directory cap entries = some bins) :
    bins.length ≤ 2 * ((totalSize entries + cap - 1) / cap) - 1 := by
  rw [split_large_directory] at hres
  split at hres
  · exact absurd hres (by simp)
  · next hne =>
    split at hres
    · exact absurd hres (by simp)
    · next hhead =>
      have hbins : greedyBins cap
          (sortBySizeDesc (entries.filter (fun e => decide (0 < e.2)))) = bins :=
        Option.some.inj hres
      have hperm := sortBySizeDesc_perm (entries.filter (fun e => decide (0 < e.2)))
      have hflat := greedyBins_flatten cap
        (sortBySizeDesc (entries.filter (fun e => decide (0 < e.2))))
      rw [hbins] at hflat
      have htot : (bins.map binSize).sum = totalSize entries := by
        rw [binSize_sum, hflat, totalSize]
        exact (hperm.map (fun e => e.2)).sum_eq
      have hchainB : List.Chain' (binR cap) bins := by
        rw [← hbins]
        exact greedyBins_chain cap _
      have hchain : List.Chain' (fun a b => cap < a + b) (bins.map binSize) := by
        rw [List.chain'_map]
        refine hchainB.imp ?_
        intro B B' h
        have := firstSize_le_binSize B'
        rw [binR] at h
        omega
      rcases chain_pairing cap (bins.map binSize).length (bins.map binSize)
          le_rfl hchain with hlt | hle
      · rw [List.length_map, htot] at hlt
        have h2 : totalSize entries ≤ ((totalSize entries + cap - 1) / cap) * cap := by
          have hdm := Nat.div_add_mod (totalSize entries + cap - 1) cap
          have hmod : (totalSize entries + cap - 1) % cap < cap := Nat.mod_lt _ hcap
          have hc : ((totalSize entries + cap - 1) / cap) * cap =
              cap * ((totalSize entries + cap - 1) / cap) := Nat.mul_comm _ _
          have hX : (totalSize entries + cap - 1) + 1 = totalSize entries + cap := by
            omega
          rw [hc]
          linarith
        have h4 : bins.length / 2 < (totalSize entries + cap - 1) / cap :=
          Nat.lt_of_mul_lt_mul_right (lt_of_lt_of_le hlt h2)
        omega
      · rw [List.length_map] at hle
        rcases Nat.lt_or_ge bins.length 1 with h0 | h1
        · omega
        · have hlen2 := hperm.length_eq
          have hfne : 0 < (entries.filter (fun e => decide (0 < e.2))).length :=
            List.length_pos.mpr hne
          have htotpos : 0 < totalSize entries := by
            have hsum : totalSize entries =
                ((sortBySizeDesc (entries.filter (fun e => decide (0 < e.2)))).map
                  (fun e => e.2)).sum := by
              rw [totalSize]
              exact ((hperm.map (fun e => e.2)).sum_eq).symm
            rcases hsh : sortBySizeDesc (entries.filter (fun e => decide (0 < e.2)))
              with _ | ⟨e0, t⟩
            · rw [hsh] at hlen2
              simp at hlen2
              omega
            · have he0 : e0 ∈ entries.filter (fun e => decide (0 < e.2)) := by
                apply hperm.mem_iff.mp
                rw [hsh]
                exact List.mem_cons_self _ _
              have he0pos : 0 < e0.2 := by
                have := (List.mem_filter.mp he0).2
                simpa using this
              rw [hsum, hsh]
              simp [List.sum_cons]
              omega
          have hceil : 1 ≤ (totalSize entries + cap - 1) / cap := by
            rw [Nat.le_div_iff_mul_le hcap]
            omega
          omega

/-- C3 (counterexample to the claim as stated): six files of
`26 214 401` bytes (each nonzero and at most the capacity
`MAX_CHUNK_SIZE = 52 428 800`) make the greedy loop open six bins —
no two of them fit together — while
`⌈totalSize / capacity⌉ + 1 = ⌈157 286 406 / 52 428 800⌉ + 1 = 5`. -/
theorem C3_counterexample :
    ([("a", 26214401), ("b", 26214401), ("c", 26214401),
      ("d", 26214401), ("e", 26214401), ("f", 26214401)].all
        (fun e => decide (0 < e.2) && decide (e.2 ≤ MAX_CHUNK_SIZE)) = true) ∧
    (split_large_directory MAX_CHUNK_SIZE
        [("a", 26214401), ("b", 26214401), ("c", 26214401),
         ("d", 26214401), ("e", 26214401), ("f", 26214401)]).map List.length =
      some 6 ∧
    ¬(6 ≤ (totalSize [("a", 26214401), ("b", 26214401), ("c", 26214401),
        ("d", 26214401), ("e", 26214401), ("f", 26214401)] + MAX_CHUNK_SIZE - 1) /
          MAX_CHUNK_SIZE + 1) := by
  decide

theorem C3_bin_count_bound_witness :
    0 < MAX_CHUNK_SIZE ∧
    (∀ e ∈ [("a", 10), ("c", 5)].filter (fun e => decide (0 < e.2)),
      e.2 ≤ MAX_CHUNK_SIZE) ∧
    split_large_directory MAX_CHUNK_SIZE [("a", 10), ("c", 5)] =
      some [[("a", 10), ("c", 5)]] ∧
    ([[("a", 10), ("c", 5)]] : List (List (String × Nat))).length ≤
      2 * ((totalSize [("a", 10), ("c", 5)] + MAX_CHUNK_SIZE - 1) / MAX_CHUNK_SIZE) - 1 :=
  ⟨by decide, by decide, by decide,
   C3_bin_count_bound MAX_CHUNK_SIZE [("a", 10), ("c", 5)] [[("a", 10), ("c", 5)]]
     (by decide) (by decide) (by decide)⟩

/-- C4: whenever the directory has nonzero files and the largest of them
is within the per-bin capacity, `split_large_directory` succeeds and its
bins partition the nonzero files — the concatenation of the bins is a
permutation of the walked nonzero file list, so every file sits whole in
exactly one bin's staging tree and no file's bytes are divided; if some
nonzero file exceeds the capacity (equivalently, the largest does), the
split fails with `None` before producing anything. -/
theorem C4_whole_file_assignment (cap : Nat) (entries : List (String × Nat)) :
    (entries.filter (fun e => decide (0 < e.2)) ≠ [] →
      (∀ e ∈ entries.filter (fun e => decide (0 < e.2)), e.2 ≤ cap) →
      (split_large_directory cap entries).isSome = true ∧
      List.Perm ((split_large_directory cap entries).getD []).flatten
        (entries.filter (fun e => decide (0 < e.2)))) ∧
    ((∃ e ∈ entries.filter (fun e => decide (0 < e.2)), cap < e.2) →
      split_large_directory cap entries = none) := by
  constructor
  · intro hne hfit
    have hperm := sortBySizeDesc_perm (entries.filter (fun e => decide (0 < e.2)))
    have hheadle : ¬ (cap <
        ((sortBySizeDesc (entries.filter (fun e => decide (0 < e.2)))).headD ("", 0)).2) := by
      rcases hsh : sortBySizeDesc (entries.filter (fun e => decide (0 < e.2)))
        with _ | ⟨e0, t⟩
      · simp
      · have he0 : e0 ∈ entries.filter (fun e => decide (0 < e.2)) := by
          apply hperm.mem_iff.mp
          rw [hsh]
          exact List.mem_cons_self _ _
        have := hfit e0 he0
        simp
        omega
    rw [split_large_directory, if_neg hne, if_neg hheadle]
    refine ⟨rfl, ?_⟩
    show List.Perm (greedyBins cap
      (sortBySizeDesc (entries.filter (fun e => decide (0 < e.2))))).flatten _
    rw [greedyBins_flatten]
    exact hperm
  · rintro ⟨e, he, hecap⟩
    have hne : entries.filter (fun e => decide (0 < e.2)) ≠ [] := by
      intro h0
      rw [h0] at he
      simp at he
    have hperm := sortBySizeDesc_perm (entries.filter (fun e => decide (0 < e.2)))
    have hpw := sortBySizeDesc_pairwise (entries.filter (fun e => decide (0 < e.2)))
    have hes : e ∈ sortBySizeDesc (entries.filter (fun e => decide (0 < e.2))) :=
      hperm.mem_iff.mpr he
    have hhead : cap <
        ((sortBySizeDesc (entries.filter (fun e => decide (0 < e.2)))).headD ("", 0)).2 := by
      rcases hsh : sortBySizeDesc (entries.filter (fun e => decide (0 < e.2)))
        with _ | ⟨e0, t⟩
      · rw [hsh] at hes
        simp at hes
      · rw [hsh] at hes hpw
        rcases List.mem_cons.mp hes with rfl | hes'
        · simpa using hecap
        · have := (List.pairwise_cons.mp hpw).1 e hes'
          simp
          omega
    rw [split_large_directory, if_neg hne, if_pos hhead]

theorem C4_whole_file_assignment_witness :
    (split_large_directory MAX_CHUNK_SIZE [("a", 10), ("b", 0), ("c", 5)]).isSome = true ∧
    List.Perm
      ((split_large_directory MAX_CHUNK_SIZE [("a", 10), ("b", 0), ("c", 5)]).getD
        []).flatten
      ([("a", 10), ("b", 0), ("c", 5)].filter (fun e => decide (0 < e.2))) :=
  (C4_whole_file_assignment MAX_CHUNK_SIZE [("a", 10), ("b", 0), ("c", 5)]).1
    (by decide) (by decide)

/-!
## Archiver (`zip_backup_folder`, core.py lines 660-732)

`gzSize` is the size gzip produces for the tar archive (an environment
parameter: compression output size is not determined by the input sizes
alone).  `splitOutcome` abstracts the value returned by a delegation to
`split_large_directory`; the delegation branches' own filesystem effects
are outside the success path this claim is about.
-/

/-- The `os.walk(folder_path)` file enumeration: all files under `d`. -/
def filesUnder (fs : FS) (d : FPath) : List (FPath × Nat) :=
  fs.files.filter (fun e => underDir d e.1)

/-- `f"{zip_file_path}.tar.gz"` (core.py line 701). -/
def addTarGz (base : FPath) : FPath :=
  base.dropLast ++ [base.getLastD "" ++ ".tar.gz"]

/-- `dir_size`: sum of the nonzero file sizes under the folder
(core.py lines 681-691; zero-size files are skipped). -/
def dirSizeOf (fs : FS) (folder : FPath) : Nat :=
  (((filesUnder fs folder).map (fun e => e.2)).filter (fun s => decide (0 < s))).sum

/-- `zip_backup_folder` (core.py lines 660-732): reject a missing or
empty source; delegate oversize sources to the splitter; otherwise write
the tar.gz, reject/delegate on its size, and on success
`_clean_directory(folder_path)` and return the tar path. -/
def zip_backup_folder (splitOutcome : Option (List FPath)) (gzSize : Nat)
    (fs : FS) (folder : FPath) (base : FPath) :
    Option (FPath ⊕ List FPath) × FS :=
  if folder ∉ fs.dirs then (none, fs)
  else if (filesUnder fs folder).length = 0 then (none, fs)
  else if dirSizeOf fs folder = 0 then (none, fs)
  else if MAX_SOURCE_DIR_SIZE < dirSizeOf fs folder then (splitOutcome.map Sum.inr, fs)
  else if gzSize = 0 then
    (none, (fs.writeFile (addTarGz base) gzSize).removeFile (addTarGz base))
  else if MAX_SINGLE_FILE_SIZE < gzSize then
    (splitOutcome.map Sum.inr,
     (fs.writeFile (addTarGz base) gzSize).removeFile (addTarGz base))
  else
    (some (Sum.inl (addTarGz base)),
     clean_directory (fs.writeFile (addTarGz base) gzSize) folder)

theorem filter_under_not_under (l : List (FPath × Nat)) (d : FPath) :
    (l.filter (fun e => !underDir d e.1)).filter (fun e => underDir d e.1) = [] := by
  induction l with
  | nil => rfl
  | cons e rest ih =>
    by_cases h : underDir d e.1 = true
    · rw [List.filter_cons_of_neg (by simp [h])]
      exact ih
    · rw [List.filter_cons_of_pos (by simp [h]), List.filter_cons_of_neg (by simp [h])]
      exact ih

/-- C6 (amended): under the success conditions (`folder` exists with at
least one file, positive aggregate nonzero size within the source-tree
ceiling, and a nonzero compressed size within the single-file ceiling)
`zip_backup_folder` returns the single `.tar.gz` path and **empties** the
source directory — every file under it is gone and the archive exists —
but `_clean_directory` re-creates the directory itself after `rmtree`, so
the source directory still exists (empty) after the call; it is not
removed from disk as the claim states. -/
theorem C6_archive_success (splitOutcome : Option (List FPath)) (gzSize : Nat)
    (fs : FS) (folder base : FPath)
    (hdir : folder ∈ fs.dirs)
    (hnfiles : (filesUnder fs folder).length ≠ 0)
    (hsz : dirSizeOf fs folder ≠ 0)
    (hsrc : dirSizeOf fs folder ≤ MAX_SOURCE_DIR_SIZE)
    (hgz0 : gzSize ≠ 0) (hgzM : gzSize ≤ MAX_SINGLE_FILE_SIZE)
    (htar : underDir folder (addTarGz base) = false) :
    (zip_backup_folder splitOutcome gzSize fs folder base).1 =
      some (Sum.inl (addTarGz base)) ∧
    folder ∈ (zip_backup_folder splitOutcome gzSize fs folder base).2.dirs ∧
    filesUnder (zip_backup_folder splitOutcome gzSize fs folder base).2 folder = [] ∧
    lookupFile (zip_backup_folder splitOutcome gzSize fs folder base).2.files
      (addTarGz base) = some gzSize := by
  rw [zip_backup_folder, if_neg (by simp [hdir]), if_neg hnfiles, if_neg hsz,
    if_neg (by omega), if_neg hgz0, if_neg (by omega)]
  refine ⟨rfl, List.mem_cons_self _ _, ?_, ?_⟩
  · exact filter_under_not_under _ folder
  · rw [lookupFile_clean_of_not_under _ folder _ htar]
    exact lookupFile_writeFile_self fs (addTarGz base) gzSize

/-- C6 (counterexample to the claim as stated): a successful archive run
over directory `["b"]` returns the `.tar.gz` path, yet the source
directory still exists afterwards (recreated empty by
`_clean_directory`), contradicting "it no longer exists on disk". -/
theorem C6_counterexample :
    (zip_backup_folder none 50 ⟨[(["b", "x"], 100)], [["b"]]⟩ ["b"] ["b_zip"]).1 =
      some (Sum.inl ["b_zip.tar.gz"]) ∧
    ["b"] ∈ (zip_backup_folder none 50 ⟨[(["b", "x"], 100)], [["b"]]⟩
      ["b"] ["b_zip"]).2.dirs := by
  decide

theorem C6_archive_success_witness :
    (zip_backup_folder none 7 ⟨[(["d", "y"], 9)], [["d"]]⟩ ["d"] ["dz"]).1 =
      some (Sum.inl (addTarGz ["dz"])) ∧
    ["d"] ∈ (zip_backup_folder none 7 ⟨[(["d", "y"], 9)], [["d"]]⟩ ["d"] ["dz"]).2.dirs ∧
    filesUnder (zip_backup_folder none 7 ⟨[(["d", "y"], 9)], [["d"]]⟩ ["d"] ["dz"]).2
      ["d"] = [] ∧
    lookupFile (zip_backup_folder none 7 ⟨[(["d", "y"], 9)], [["d"]]⟩
      ["d"] ["dz"]).2.files (addTarGz ["dz"]) = some 7 :=
  C6_archive_success none 7 ⟨[(["d", "y"], 9)], [["d"]]⟩ ["d"] ["dz"]
    (by decide) (by decide) (by decide) (by decide) (by decide) (by decide) (by decide)

/-!
## Directory Provisioner (`_create_remote_directory`, core.py lines 383-408)

Remote paths are segment lists (`os.path.dirname` is `dropLast`; the
`not remote_dir or remote_dir == '.'` root test is the empty list).  The
remote store — external to the repository — is modelled as a conforming
WebDAV server: its state is the set of existing collections, and MKCOL
answers 405 when the collection already exists, 409 when the (non-root)
parent collection is missing, and 201 on creation.  The third result
component counts the MKCOL requests issued by the call.  The recursion of
the source is on the parent path, expressed with fuel `p.length`
(structural; the zero-fuel arm for a nonempty path is unreachable since
the fuel always equals the path length).
-/

/-- A server collection path. -/
abbrev RPath := List String

/-- The conforming WebDAV server state: existing collections. -/
abbrev Server := List RPath

/-- One MKCOL request against a conforming server. -/
def mkcol (srv : Server) (p : RPath) : Nat × Server :=
  if p ∈ srv then (405, srv)
  else if p.dropLast ≠ [] ∧ p.dropLast ∉ srv then (409, srv)
  else (201, p :: srv)

/-- `response.status_code in [201, 204, 405]` (core.py lines 394, 403). -/
def mkcolOK (code : Nat) : Bool := decide (code = 201 ∨ code = 204 ∨ code = 405)

/-- The recursion of `_create_remote_directory` with explicit fuel:
trivially succeed on the root path; issue MKCOL; on 409 with a non-root
parent, provision the parent recursively and retry the original create
exactly once; report anything else as `false`. -/
def createRemoteF : Nat → Server → RPath → Bool × Server × Nat
  | _, srv, [] => (true, srv, 0)
  | 0, srv, _ :: _ => (false, srv, 0)
  | fuel + 1, srv, a :: rest =>
    if mkcolOK (mkcol srv (a :: rest)).1 then (true, (mkcol srv (a :: rest)).2, 1)
    else if (mkcol srv (a :: rest)).1 = 409 then
      if (a :: rest).dropLast ≠ [] then
        if (createRemoteF fuel (mkcol srv (a :: rest)).2 (a :: rest).dropLast).1 then
          (mkcolOK (mkcol (createRemoteF fuel (mkcol srv (a :: rest)).2
              (a :: rest).dropLast).2.1 (a :: rest)).1,
           (mkcol (createRemoteF fuel (mkcol srv (a :: rest)).2
              (a :: rest).dropLast).2.1 (a :: rest)).2,
           (createRemoteF fuel (mkcol srv (a :: rest)).2 (a :: rest).dropLast).2.2 + 2)
        else
          (false,
           (createRemoteF fuel (mkcol srv (a :: rest)).2 (a :: rest).dropLast).2.1,
           (createRemoteF fuel (mkcol srv (a :: rest)).2 (a :: rest).dropLast).2.2 + 1)
      else (false, (mkcol srv (a :: rest)).2, 1)
    else (false, (mkcol srv (a :: rest)).2, 1)

/-- `_create_remote_directory` (core.py lines 383-408):
result, server state after the call, number of MKCOL requests issued. -/
def create_remote_directory (srv : Server) (p : RPath) : Bool × Server × Nat :=
  createRemoteF p.length srv p

/-- Against a conforming server, provisioning any non-root path succeeds,
afterwards the collection exists, and no existing collection is lost. -/
theorem createRemoteF_spec :
    ∀ (fuel : Nat) (p : RPath) (srv : Server), p ≠ [] → p.length ≤ fuel →
      (createRemoteF fuel srv p).1 = true ∧
      p ∈ (createRemoteF fuel srv p).2.1 ∧
      ∀ q ∈ srv, q ∈ (createRemoteF fuel srv p).2.1 := by
  intro fuel
  induction fuel with
  | zero =>
    intro p srv hp hl
    rcases p with _ | ⟨a, rest⟩
    · exact absurd rfl hp
    · simp at hl
  | succ n ih =>
    intro p srv hp hl
    rcases p with _ | ⟨a, rest⟩
    · exact absurd rfl hp
    · by_cases hmem : (a :: rest) ∈ srv
      · have hm : mkcol srv (a :: rest) = (405, srv) := by rw [mkcol, if_pos hmem]
        rw [createRemoteF, hm]
        simp [mkcolOK]
        exact hmem
      · by_cases hpar : (a :: rest).dropLast ≠ [] ∧ (a :: rest).dropLast ∉ srv
        · have hm : mkcol srv (a :: rest) = (409, srv) := by
            rw [mkcol, if_neg hmem, if_pos hpar]
          have hlen : (a :: rest).dropLast.length ≤ n := by
            rw [List.length_dropLast]
            simp at hl ⊢
            omega
          obtain ⟨h1, h2, h3⟩ := ih (a :: rest).dropLast srv hpar.1 hlen
          rw [createRemoteF, hm]
          rw [show mkcolOK 409 = false from rfl]
          simp only [Bool.false_eq_true, if_false, if_pos rfl, if_pos hpar.1]
          rw [if_pos h1]
          by_cases hmem2 : (a :: rest) ∈ (createRemoteF n srv (a :: rest).dropLast).2.1
          · have hm2 : mkcol (createRemoteF n srv (a :: rest).dropLast).2.1 (a :: rest) =
                (405, (createRemoteF n srv (a :: rest).dropLast).2.1) := by
              rw [mkcol, if_pos hmem2]
            rw [hm2]
            exact ⟨rfl, hmem2, fun q hq => h3 q hq⟩
          · have hm2 : mkcol (createRemoteF n srv (a :: rest).dropLast).2.1 (a :: rest) =
                (201, (a :: rest) :: (createRemoteF n srv (a :: rest).dropLast).2.1) := by
              rw [mkcol, if_neg hmem2, if_neg (fun hc => hc.2 h2)]
            rw [hm2]
            exact ⟨rfl, List.mem_cons_self _ _,
              fun q hq => List.mem_cons_of_mem _ (h3 q hq)⟩
        · have hm : mkcol srv (a :: rest) = (201, (a :: rest) :: srv) := by
            rw [mkcol, if_neg hmem, if_neg hpar]
          rw [createRemoteF, hm]
          simp [mkcolOK]
          intro q hq
          exact Or.inr hq

/-- A second call on an already-existing non-root collection is a single
MKCOL answered 405 ("already exists"): success with no state change. -/
theorem create_remote_eq_of_mem (srv : Server) (p : RPath)
    (hp : p ∈ srv) (hne : p ≠ []) :
    create_remote_directory srv p = (true, srv, 1) ∧ mkcol srv p = (405, srv) := by
  have hm : mkcol srv p = (405, srv) := by rw [mkcol, if_pos hp]
  rcases p with _ | ⟨a, rest⟩
  · exact absurd rfl hne
  · refine ⟨?_, hm⟩
    rw [create_remote_directory]
    rw [show (a :: rest).length = rest.length + 1 from rfl]
    rw [createRemoteF, hm]
    simp [mkcolOK]

/-- C7: calling `_create_remote_directory` twice on the same path against
a conforming server returns `true` both times; the second call issues
exactly one MKCOL, answered 405 ("already exists", accepted alongside
201/204), and leaves the server state unchanged — no duplicate creation
and no erroring side effect; the root/empty path returns `true`
immediately with no request at all. -/
theorem C7_provision_idempotent (srv : Server) (p : RPath) :
    (create_remote_directory srv p).1 = true ∧
    (create_remote_directory (create_remote_directory srv p).2.1 p).1 = true ∧
    (create_remote_directory (create_remote_directory srv p).2.1 p).2.1 =
      (create_remote_directory srv p).2.1 ∧
    (p ≠ [] →
      mkcol (create_remote_directory srv p).2.1 p =
        (405, (create_remote_directory srv p).2.1) ∧
      (create_remote_directory (create_remote_directory srv p).2.1 p).2.2 = 1) ∧
    create_remote_directory srv [] = (true, srv, 0) := by
  by_cases hp : p = []
  · subst hp
    exact ⟨rfl, rfl, rfl, fun h => absurd rfl h, rfl⟩
  · obtain ⟨h1, h2, h3⟩ := createRemoteF_spec p.length p srv hp le_rfl
    obtain ⟨hsec, hm⟩ :=
      create_remote_eq_of_mem (create_remote_directory srv p).2.1 p h2 hp
    refine ⟨h1, ?_, ?_, fun _ => ⟨hm, ?_⟩, rfl⟩
    · rw [hsec]
    · rw [hsec]
    · rw [hsec]

theorem C7_provision_idempotent_witness :
    (["alpha", "beta"] : RPath) ≠ [] ∧
    (mkcol (create_remote_directory [] ["alpha", "beta"]).2.1 ["alpha", "beta"] =
      (405, (create_remote_directory [] ["alpha", "beta"]).2.1) ∧
     (create_remote_directory (create_remote_directory [] ["alpha", "beta"]).2.1
        ["alpha", "beta"]).2.2 = 1) :=
  ⟨by decide, (C7_provision_idempotent [] ["alpha", "beta"]).2.2.2.1 (by decide)⟩

/-!
### Consistency of the two chunker embeddings

`chunkSizes` (the filesystem-level model) lists exactly the lengths of
the byte-level chunks `readChunks` produces.
-/

theorem readChunksF_fuel (c : Nat) (hc : c ≠ 0) :
    ∀ (f : Nat) (L : List Nat), L.length ≤ f →
      readChunksF c f L = readChunksF c L.length L := by
  intro f
  induction f using Nat.strong_induction_on with
  | _ f ih =>
    intro L hL
    rcases f with _ | f
    · have : L = [] := List.length_eq_zero.mp (Nat.le_zero.mp hL)
      subst this
      rfl
    · by_cases hnil : L = []
      · subst hnil
        rw [readChunksF, if_pos (Or.inr rfl)]
        rfl
      · rcases hL' : L.length with _ | m
        · exact absurd (List.length_eq_zero.mp hL') hnil
        · have hcond : ¬(c = 0 ∨ L = []) := by
            rintro (h | h)
            · exact hc h
            · exact hnil h
          rw [readChunksF, if_neg hcond, readChunksF, if_neg hcond]
          congr 1
          have hdl : (L.drop c).length = L.length - c := List.length_drop c L
          have h1 : (L.drop c).length ≤ f := by omega
          have h2 : (L.drop c).length ≤ m := by omega
          rw [ih f (Nat.lt_succ_self f) (L.drop c) h1,
            ih m (by omega) (L.drop c) h2]

theorem chunkSizes_eq_map_length (c : Nat) (L : List Nat) :
    chunkSizes c L.length = (readChunks c L).map List.length := by
  by_cases hc : c = 0
  · subst hc
    rcases L with _ | ⟨x, xs⟩
    · simp [chunkSizes, chunkSizesF, readChunks, readChunksF]
    · simp [chunkSizes, chunkSizesF, readChunks, readChunksF, Nat.div_zero]
  · suffices h : ∀ (n : Nat) (L : List Nat), L.length ≤ n →
        chunkSizes c L.length = (readChunks c L).map List.length from
      h L.length L le_rfl
    intro n
    induction n with
    | zero =>
      intro L hL
      have : L = [] := List.length_eq_zero.mp (Nat.le_zero.mp hL)
      subst this
      simp [chunkSizes, chunkSizesF, readChunks, readChunksF, Nat.zero_div]
    | succ m ih =>
      intro L hL
      by_cases hnil : L = []
      · subst hnil
        simp [chunkSizes, chunkSizesF, readChunks, readChunksF, Nat.zero_div]
      · have hlpos : 0 < L.length := List.length_pos.mpr hnil
        have hcond : ¬(c = 0 ∨ L.length = 0) := by
          rintro (h | h)
          · exact hc h
          · omega
        have hcondL : ¬(c = 0 ∨ L = []) := by
          rintro (h | h)
          · exact hc h
          · exact hnil h
        -- unfold one step on the left
        rw [chunkSizes, chunkSizesF, if_neg hcond]
        -- unfold one step on the right
        rcases hL' : L.length with _ | k
        · omega
        · rw [readChunks, hL', readChunksF, if_neg hcondL, List.map_cons,
            List.length_take, hL']
          congr 1
          have hdl : (L.drop c).length = L.length - c := List.length_drop c L
          have hstab : readChunksF c k (L.drop c) = readChunks c (L.drop c) := by
            rw [readChunks]
            exact readChunksF_fuel c hc k (L.drop c) (by omega)
          rw [hstab]
          have hih := ih (L.drop c) (by omega)
          rw [hdl, hL'] at hih
          rw [← hih]
          -- chunkSizesF c (L.length / c) (L.length - c) = chunkSizes c (k + 1 - c)
          rcases Nat.lt_or_ge L.length c with hlt | hge
          · have hz : L.length - c = 0 := by omega
            have hdivz : L.length / c = 0 := Nat.div_eq_of_lt hlt
            rw [hL'] at hz hdivz
            rw [hz, hdivz]
            simp [chunkSizes, chunkSizesF, Nat.zero_div]
          · have hdiv : L.length / c = (L.length - c) / c + 1 :=
              Nat.div_eq_sub_div (Nat.pos_of_ne_zero hc) hge
            rw [hL'] at hdiv
            rw [hdiv, chunkSizes]
